import Mathlib

/-!
Verification of the fitcheck ingestion-and-search pipeline.

The Python sources are shallowly embedded over `List Char` (text) and `ℚ`
(numeric scores).  External collaborators (the JSON parser, the embedding
model, the database's per-row insert outcome and its distance operator) are
passed as function parameters; everything the repository itself computes is
translated directly from `scripts/ingest_papers.py` and `ml_service/main.py`.
-/

namespace FitCheck

/-- Python `\s` (ASCII range): space, tab, newline, carriage return,
vertical tab, form feed. -/
def isPySpace (c : Char) : Bool :=
  c = ' ' || c = '\t' || c = '\n' || c = '\r' || c = '\x0b' || c = '\x0c'

/-- The apostrophe character (spelled via its code point). -/
def squote : Char := Char.ofNat 39

/-- Auxiliary scanner for Python `str.split()` (no separator argument):
maximal runs of non-whitespace characters, empty strings never produced.
`acc` holds the current token reversed. -/
def splitWsAux : List Char → List Char → List (List Char)
  | [], acc => if acc.isEmpty then [] else [acc.reverse]
  | c :: cs, acc =>
    if isPySpace c then
      if acc.isEmpty then splitWsAux cs [] else acc.reverse :: splitWsAux cs []
    else
      splitWsAux cs (c :: acc)

/-- Python `s.split()`: whitespace-delimited tokens of `s`. -/
def splitWs (l : List Char) : List (List Char) := splitWsAux l []

/-- Python `' '.join(parts)`. -/
def joinSpace : List (List Char) → List Char
  | [] => []
  | [s] => s
  | s :: ss => s ++ ' ' :: joinSpace ss

/-- Sentence-boundary punctuation of the splitter regex `(?<=[.!?])\s+`. -/
def isSentEnd (c : Char) : Bool :=
  c = '.' || c = '!' || c = '?'

/-- Auxiliary scanner for `re.split(r'(?<=[.!?])\s+', text)`.
`skipping = true` while consuming the whitespace run that follows a
sentence boundary; `acc` holds the current sentence reversed.  A boundary is
recognised when a whitespace character is read and the previously read
character (head of `acc`) is `.`, `!` or `?`. -/
def splitSentencesAux : List Char → Bool → List Char → List (List Char)
  | [], _, acc => [acc.reverse]
  | c :: cs, true, acc =>
    if isPySpace c then splitSentencesAux cs true acc
    else splitSentencesAux cs false (c :: acc)
  | c :: cs, false, acc =>
    if isPySpace c then
      match acc with
      | p :: ps =>
        if isSentEnd p then (p :: ps).reverse :: splitSentencesAux cs true []
        else splitSentencesAux cs false (c :: p :: ps)
      | [] => splitSentencesAux cs false [c]
    else splitSentencesAux cs false (c :: acc)

/-- `re.split(r'(?<=[.!?])\s+', text)`: split at whitespace runs that
immediately follow boundary punctuation, consuming the whitespace. -/
def splitSentences (l : List Char) : List (List Char) :=
  splitSentencesAux l false []

/-- Auxiliary scanner for `re.sub(r'\s+', ' ', text)`: each maximal
whitespace run becomes a single space.  `inRun` is true when the previous
character was whitespace. -/
def collapseWsAux : Bool → List Char → List Char
  | _, [] => []
  | inRun, c :: cs =>
    if isPySpace c then
      if inRun then collapseWsAux true cs else ' ' :: collapseWsAux true cs
    else c :: collapseWsAux false cs

/-- `re.sub(r'\s+', ' ', text)`. -/
def collapseWs (l : List Char) : List Char := collapseWsAux false l

/-- Python `str.strip()` (whitespace from both ends). -/
def pyStrip (l : List Char) : List Char :=
  ((l.dropWhile isPySpace).reverse.dropWhile isPySpace).reverse

/-- ASCII reading of Python `\w`: letters, digits, underscore. -/
def isWordChar (c : Char) : Bool := c.isAlphanum || c = '_'

/-- The punctuation whitelist of `re.sub(r'[^\w\s\.\,\!\?\;\:\-\(\)\"\']+', ' ', text)`. -/
def isAllowedPunct (c : Char) : Bool :=
  c = '.' || c = ',' || c = '!' || c = '?' || c = ';' || c = ':' ||
  c = '-' || c = '(' || c = ')' || c = '"' || c = squote

/-- A character kept (not replaced) by the excessive-punctuation pass. -/
def keepChar (c : Char) : Bool := isWordChar c || isPySpace c || isAllowedPunct c

/-- Auxiliary scanner for the excessive-punctuation pass: each maximal run
of disallowed characters becomes one space. -/
def badRunsAux : Bool → List Char → List Char
  | _, [] => []
  | inRun, c :: cs =>
    if keepChar c then c :: badRunsAux false cs
    else if inRun then badRunsAux true cs
    else ' ' :: badRunsAux true cs

/-- `re.sub(r'[^\w\s\.\,\!\?\;\:\-\(\)\"\']+', ' ', text)`. -/
def badRuns (l : List Char) : List Char := badRunsAux false l

/-- Matcher for `^\s*Page \d+.*$` applied to a single line: optional
whitespace, the literal `Page `, then at least one digit (the trailing `.*`
always matches, so a matching line is removed entirely). -/
def isPageLine (line : List Char) : Bool :=
  match line.dropWhile isPySpace with
  | 'P' :: 'a' :: 'g' :: 'e' :: ' ' :: d :: _ => d.isDigit
  | _ => false

/-- Matcher for `^\s*\d+\s*$` applied to a single line: only whitespace
around a nonempty digit run. -/
def isNumLine (line : List Char) : Bool :=
  let r := line.dropWhile isPySpace
  let d := r.takeWhile Char.isDigit
  !d.isEmpty && (r.drop d.length).all isPySpace

/-- One `re.MULTILINE` substitution deleting every line matched by `p`
(the patterns modelled match to end of line, so a hit erases the line). -/
def dropMatchingLines (p : List Char → Bool) (l : List Char) : List Char :=
  List.intercalate ['\n'] ((l.splitOn '\n').map (fun line => if p line then [] else line))

/-- `TextProcessor.clean_text` from `scripts/ingest_papers.py`: collapse
whitespace, drop form feeds, erase page-number lines and standalone-number
lines, replace runs of disallowed characters with a space, re-collapse and
strip. -/
def clean_text (text : List Char) : List Char :=
  if text.isEmpty then []
  else
    let t1 := collapseWs text
    let t2 := t1.filter (fun c => c ≠ '\x0c')
    let t3 := dropMatchingLines isPageLine t2
    let t4 := dropMatchingLines isNumLine t3
    let t5 := badRuns t4
    pyStrip (collapseWs t5)

/-- `len(sentence.split())`: the word count of one sentence. -/
def wc (s : List Char) : Nat := (splitWs s).length

/-- Word count of a sentence list (Python
`sum(len(s.split()) for s in sentences)`). -/
def wcSum (ss : List (List Char)) : Nat := (ss.map wc).sum

/-- An emitted chunk dict of `TextProcessor.chunk_text`:
`{'text': ..., 'word_count': ..., 'title': ...}`. -/
structure Chunk where
  text : List Char
  word_count : Nat
  title : List Char
deriving DecidableEq, Repr

/-- The sentence loop of `TextProcessor.chunk_text`, recorded at the
sentence level: each emitted chunk is the pair
(`current_chunk`, `current_length`) at emission time (the dict's `text`
field is materialised as `' '.join(current_chunk)` by `chunk_text` below).
`size` is `self.chunk_size`, `ov` is `self.chunk_overlap`; the state is
(`current_chunk`, `current_length`). -/
def chunkAux (size ov : Nat) : List (List Char) → List (List Char) → Nat →
    List (List (List Char) × Nat)
  | [], cur, cl => if cur.isEmpty then [] else [(cur, cl)]
  | s :: rest, cur, cl =>
    let sl := wc s
    if cl + sl > size ∧ ¬cur.isEmpty then
      if ov > 0 ∧ cur.length > 1 then
        let ovs := cur.drop (cur.length - ov)
        (cur, cl) :: chunkAux size ov rest (ovs ++ [s]) (wcSum ovs + sl)
      else
        (cur, cl) :: chunkAux size ov rest [s] sl
    else
      chunkAux size ov rest (cur ++ [s]) (cl + sl)

/-- Instrumented variant of `chunkAux` that additionally records, for every
emitted chunk, how many of its leading sentences were seeded as overlap from
the previously emitted chunk (`0` for a chunk started fresh).  It performs
exactly the same computation (see `chunkAux_eq_chunkAuxI`). -/
def chunkAuxI (size ov : Nat) : List (List Char) → List (List Char) → Nat → Nat →
    List (List (List Char) × Nat × Nat)
  | [], cur, cl, k => if cur.isEmpty then [] else [(cur, cl, k)]
  | s :: rest, cur, cl, k =>
    let sl := wc s
    if cl + sl > size ∧ ¬cur.isEmpty then
      if ov > 0 ∧ cur.length > 1 then
        let ovs := cur.drop (cur.length - ov)
        (cur, cl, k) :: chunkAuxI size ov rest (ovs ++ [s]) (wcSum ovs + sl) ovs.length
      else
        (cur, cl, k) :: chunkAuxI size ov rest [s] sl 0
    else
      chunkAuxI size ov rest (cur ++ [s]) (cl + sl) k

/-- `TextProcessor.chunk_text` from `scripts/ingest_papers.py`: split into
sentences, run the greedy accumulation loop, and emit each chunk as a dict
with `text = ' '.join(current_chunk)`, `word_count = current_length` and the
given `title`. -/
def chunk_text (size ov : Nat) (text title : List Char) : List Chunk :=
  (chunkAux size ov (splitSentences text) [] 0).map
    (fun p => { text := joinSpace p.1, word_count := p.2, title := title })

/-- The `metadata` JSON blob built per row by
`DatabaseManager.insert_paper_chunks`. -/
structure Metadata where
  chunk_index : Nat
  total_chunks : Nat
  word_count : Nat
  source_file : List Char
  processed_at : List Char
deriving DecidableEq, Repr

/-- One row of the `research_papers` table (the columns written by the
ingestion INSERT; the serial `id` column is assigned by the engine and not
modelled).  Embedding components are rationals. -/
structure Row where
  title : List Char
  abstract : List Char
  text_chunk : List Char
  embedding : List ℚ
  metadata : Metadata
  paper_id : List Char
  chunk_index : Nat
  chunk_length : Nat
deriving DecidableEq, Repr

/-- `DatabaseManager.semantic_search` from `ml_service/main.py`: the SQL
query `WHERE 1 - (embedding <=> qv) >= thr ORDER BY similarity_score DESC
LIMIT maxResults`.  The engine's distance operator `<=>` is an external
collaborator, passed as `dist`; the score of a row is
`1 - dist qv row.embedding`.  Ordering is a stable descending sort on the
score column. -/
def semantic_search (dist : List ℚ → List ℚ → ℚ) (store : List Row)
    (qv : List ℚ) (maxResults : Nat) (thr : ℚ) : List Row :=
  ((store.filter (fun r => thr ≤ 1 - dist qv r.embedding)).insertionSort
      (fun a b => 1 - dist qv b.embedding ≤ 1 - dist qv a.embedding)).take maxResults

/-- One JSONL document object: `{"title": ..., "abstract": ...,
"full_text": ..., "source": ...}`, every field possibly absent. -/
structure Paper where
  title : Option (List Char)
  abstract : Option (List Char)
  full_text : Option (List Char)
  source : Option (List Char)
deriving DecidableEq, Repr

/-- `f"{paper_data['title'][:50].replace(' ', '_').lower()}_{...}"`:
truncate the title to 50 characters, spaces to underscores, lowercase,
append the timestamp `now`. -/
def mkPaperId (title now : List Char) : List Char :=
  ((title.take 50).map (fun c => Char.toLower (if c = ' ' then '_' else c))) ++ '_' :: now

/-- The row built for chunk number `i` of a paper inside the INSERT loop of
`DatabaseManager.insert_paper_chunks`. -/
def mkRow (title : List Char) (paper : Paper) (paper_id now : List Char)
    (totalChunks i : Nat) (ce : Chunk × List ℚ) : Row :=
  { title := title
    abstract := paper.abstract.getD []
    text_chunk := ce.1.text
    embedding := ce.2
    metadata :=
      { chunk_index := i
        total_chunks := totalChunks
        word_count := ce.1.word_count
        source_file := paper.source.getD "papers.jsonl".toList
        processed_at := now }
    paper_id := paper_id
    chunk_index := i
    chunk_length := ce.1.text.length }

/-- The `for i, (chunk, embedding) in enumerate(zip(chunks, embeddings))`
loop: each `cursor.execute` outcome is decided by the external oracle
`rowOk` on the row index; the first failing execute raises (the rows built
so far stay uncommitted), otherwise the pending row list is returned. -/
def execChunks (rowOk : Nat → Bool) (mk : Nat → Chunk × List ℚ → Row) :
    Nat → List (Chunk × List ℚ) → Except Unit (List Row)
  | _, [] => .ok []
  | i, ce :: rest =>
    if rowOk i then (execChunks rowOk mk (i + 1) rest).map (mk i ce :: ·)
    else .error ()

/-- `DatabaseManager.insert_paper_chunks`: `paper_data['title']` raises
`KeyError` when the key is absent (before any execute); otherwise the rows
are executed one by one and committed together at the end.  The first
component of the result is the table after the call: on any failure the
transaction is rolled back, so it equals `store`; on success it is `store`
with one appended row per zipped (chunk, embedding) pair. -/
def insert_paper_chunks (rowOk : Nat → Bool) (now : List Char)
    (store : List Row) (paper : Paper) (chunks : List Chunk)
    (embeds : List (List ℚ)) : List Row × Option (List Char) :=
  match paper.title with
  | none => (store, some "KeyError: title".toList)
  | some t =>
    let paper_id := mkPaperId t now
    match execChunks rowOk (mkRow t paper paper_id now chunks.length) 0
        (chunks.zip embeds) with
    | .ok pending => (store ++ pending, none)
    | .error _ => (store, some "Database insertion failed".toList)

/-- `f"No content: {title}"`. -/
def noContentMsg (title : List Char) : List Char := "No content: ".toList ++ title

/-- `f"No chunks: {title}"`. -/
def noChunksMsg (title : List Char) : List Char := "No chunks: ".toList ++ title

/-- `f"Processing error: {paper.get('title', 'Unknown')}"`. -/
def procErrMsg (paper : Paper) : List Char :=
  "Processing error: ".toList ++ paper.title.getD "Unknown".toList

/-- The text content assembled by `process_paper`: a truthy `abstract`
followed by a blank line, then a truthy `full_text` (Python truthiness: an
absent or empty field contributes nothing). -/
def paperTextContent (paper : Paper) : List Char :=
  (match paper.abstract with
   | some a => if a.isEmpty then [] else a ++ ['\n', '\n']
   | none => []) ++
  (match paper.full_text with
   | some f => if f.isEmpty then [] else f
   | none => [])

/-- `PaperIngestionPipeline.process_paper`: build the text content
(truthy abstract, blank line, truthy full text), fail on empty content,
clean and chunk, fail on empty chunk list, embed every chunk text through
the external `embed`, then insert; any exception is recorded as a failure
and turned into a `0` chunk count.  Result: (chunk count, table after,
failure list after). -/
def process_paper (size ov : Nat) (embed : List (List Char) → List (List ℚ))
    (rowOk : Nat → Bool) (now : List Char) (paper : Paper)
    (store : List Row) (fails : List (List Char)) :
    Nat × List Row × List (List Char) :=
  let title := paper.title.getD "Untitled".toList
  let textContent := paperTextContent paper
  if (pyStrip textContent).isEmpty then
    (0, store, fails ++ [noContentMsg title])
  else
    let cleaned := clean_text textContent
    let chunks := chunk_text size ov cleaned title
    if chunks.isEmpty then
      (0, store, fails ++ [noChunksMsg title])
    else
      let embeds := embed (chunks.map (·.text))
      match insert_paper_chunks rowOk now store paper chunks embeds with
      | (s, none) => (chunks.length, s, fails)
      | (s, some _) => (0, s, fails ++ [procErrMsg paper])

/-- `DatabaseManager.get_processed_papers`:
`SELECT DISTINCT title FROM research_papers` as a deduplicated title list. -/
def get_processed_papers (store : List Row) : List (List Char) :=
  (store.map Row.title).dedup

/-- `paper.get('title') not in processed_titles`, negated: a paper counts
as already processed only when it has a title and that title is stored
(`None` is never a member of the stored-title set). -/
def titleProcessed (titles : List (List Char)) (p : Paper) : Bool :=
  match p.title with
  | none => false
  | some t => decide (t ∈ titles)

/-- The per-paper processing loop of `PaperIngestionPipeline.run`
(batching by `batch_size` only slices the same sequential order, so the
loop is modelled as one sequential pass).  Returns (papers processed with
a positive chunk count, total chunks, table after, failures after). -/
def processLoop (size ov : Nat) (embed : List (List Char) → List (List ℚ))
    (rowOk : Nat → Bool) (now : List Char) :
    List Paper → List Row → List (List Char) →
    Nat × Nat × List Row × List (List Char)
  | [], store, fails => (0, 0, store, fails)
  | p :: rest, store, fails =>
    match process_paper size ov embed rowOk now p store fails with
    | (c, store1, fails1) =>
      match processLoop size ov embed rowOk now rest store1 fails1 with
      | (n, tc, store2, fails2) =>
        (if 0 < c then n + 1 else n, c + tc, store2, fails2)

/-- `PaperIngestionPipeline.run` after loading: return early on an empty
paper list, filter out papers whose title is already stored, return early
when nothing is left, otherwise run the processing loop.  `fails` is the
failure list accumulated during loading. -/
def pipelineRun (size ov : Nat) (embed : List (List Char) → List (List ℚ))
    (rowOk : Nat → Bool) (now : List Char) (papers : List Paper)
    (store : List Row) (fails : List (List Char)) :
    Nat × Nat × List Row × List (List Char) :=
  if papers.isEmpty then (0, 0, store, fails)
  else
    let processed_titles := get_processed_papers store
    let papers_to_process := papers.filter (fun p => !titleProcessed processed_titles p)
    if papers_to_process.isEmpty then (0, 0, store, fails)
    else processLoop size ov embed rowOk now papers_to_process store fails

/-- `f"Line {line_num}: JSON decode error"`. -/
def lineFailMsg (i : Nat) : List Char :=
  "Line ".toList ++ (Nat.repr i).toList ++ ": JSON decode error".toList

/-- The line loop of `PaperIngestionPipeline.load_papers`, starting at line
number `i`: `json.loads` (external, passed as `parse`) is applied to the
stripped line; a parsed paper is appended, a failing line is recorded as
`Line {n}: JSON decode error` and the loop continues. -/
def load_papersAux (parse : List Char → Option Paper) :
    Nat → List (List Char) → List Paper × List (List Char)
  | _, [] => ([], [])
  | i, line :: rest =>
    match load_papersAux parse (i + 1) rest, parse (pyStrip line) with
    | (ps, fs), some p => (p :: ps, fs)
    | (ps, fs), none => (ps, lineFailMsg i :: fs)

/-- `PaperIngestionPipeline.load_papers`: parse every line, numbering from
1; returns (papers in order, recorded parse failures in order). -/
def load_papers (parse : List Char → Option Paper) (lines : List (List Char)) :
    List Paper × List (List Char) :=
  load_papersAux parse 1 lines

/-- Relation between two consecutive emitted (instrumented) chunks: the
seeded prefix of the later one is a suffix of the earlier one's sentence
list (it really is repeated overlap). -/
def seedSuffix (a b : List (List Char) × Nat × Nat) : Prop :=
  (b.1.take b.2.2) <:+ a.1

/-- Concrete cleaned text used to exercise the chunker: three sentences of
3, 3 and 4 words. -/
def ceTextA : List Char := "a b c. d e f. g h i j.".toList

/-- Concrete cleaned text whose third sentence has 7 words. -/
def ceTextB : List Char := "a b c. d e f. g h i j k l m.".toList

/-- The 7-word sentence of `ceTextB`. -/
def bigSent : List Char := "g h i j k l m.".toList

/-- A whitespace-only raw input. -/
def wsOnly : List Char := " ".toList

/-- A trivial distance operator used to instantiate search theorems. -/
def d0 : List ℚ → List ℚ → ℚ := fun _ _ => 0

/-- A concrete metadata record. -/
def meta0 : Metadata := ⟨0, 1, 1, [], []⟩

/-- A concrete stored row. -/
def row0 : Row := ⟨"t".toList, [], "c".toList, [], meta0, "p".toList, 0, 1⟩

/-- A trivial embedding provider: one empty vector per input text. -/
def e0 : List (List Char) → List (List ℚ) := fun ts => ts.map (fun _ => [])

/-- A database oracle under which every execute succeeds. -/
def ok0 : Nat → Bool := fun _ => true

/-- A concrete timestamp value. -/
def now0 : List Char := "20250101".toList

/-- A stored row titled `A`. -/
def rowA : Row := ⟨"A".toList, [], "c".toList, [], meta0, "p".toList, 0, 1⟩

/-- A paper whose title `A` is already stored in `[rowA]`. -/
def papersSeen : List Paper := [⟨some "A".toList, none, none, none⟩]

/-- A one-chunk chunk list. -/
def chunks0 : List Chunk := [⟨"x".toList, 1, "T".toList⟩]

/-- One embedding vector for `chunks0`. -/
def embeds0 : List (List ℚ) := [[(1 : ℚ)]]

/-- A paper titled `T`. -/
def paper0 : Paper := ⟨some "T".toList, none, none, none⟩

/-- A paper object with no `title` field. -/
def badPaper : Paper := ⟨none, none, some "Exercise helps. Sleep matters.".toList, none⟩

/-- A concrete JSON parser: every line parses to a titled paper except the
literal line `bad`. -/
def parse0 : List Char → Option Paper := fun l =>
  if l = "bad".toList then none else some ⟨some l, none, none, none⟩

/-- Ten parsable lines and one malformed line. -/
def lines0 : List (List Char) :=
  ["p1".toList, "p2".toList, "p3".toList, "bad".toList, "p4".toList, "p5".toList,
   "p6".toList, "p7".toList, "p8".toList, "p9".toList, "p10".toList]

theorem splitWsAux_append_space (b : List Char) :
    ∀ (a acc : List Char),
      splitWsAux (a ++ ' ' :: b) acc = splitWsAux a acc ++ splitWsAux b [] := by
  intro a
  induction a with
  | nil =>
    intro acc
    simp only [List.nil_append, splitWsAux]
    by_cases h : acc.isEmpty <;> simp [h, splitWsAux, isPySpace]
  | cons c cs ih =>
    intro acc
    simp only [List.cons_append, splitWsAux]
    by_cases hc : isPySpace c <;> by_cases ha : acc.isEmpty <;>
      simp [hc, ha, ih]

theorem splitWs_joinSpace :
    ∀ ss : List (List Char), splitWs (joinSpace ss) = (ss.map splitWs).flatten := by
  intro ss
  induction ss with
  | nil => rfl
  | cons s ts ih =>
    cases ts with
    | nil => simp [joinSpace]
    | cons t ts' =>
      show splitWs (s ++ ' ' :: joinSpace (t :: ts')) = _
      unfold splitWs
      rw [splitWsAux_append_space]
      simpa [splitWs] using congrArg (splitWsAux s [] ++ ·) ih

theorem wc_joinSpace (ss : List (List Char)) : wc (joinSpace ss) = wcSum ss := by
  simp only [wc, wcSum, splitWs_joinSpace, List.length_flatten, List.map_map]
  rfl

theorem wcSum_append_single (xs : List (List Char)) (y : List Char) :
    wcSum (xs ++ [y]) = wcSum xs + wc y := by
  simp [wcSum]

theorem chunkAux_wc (size ov : Nat) :
    ∀ (sents cur : List (List Char)) (cl : Nat), cl = wcSum cur →
      ∀ p ∈ chunkAux size ov sents cur cl, p.2 = wcSum p.1 := by
  intro sents
  induction sents with
  | nil =>
    intro cur cl hcl p hp
    by_cases h : cur.isEmpty
    · simp [chunkAux, h] at hp
    · simp only [chunkAux, h, Bool.false_eq_true, if_false, List.mem_singleton] at hp
      subst hp
      simpa using hcl
  | cons s rest ih =>
    intro cur cl hcl p hp
    simp only [chunkAux] at hp
    split at hp
    · split at hp
      · rcases List.mem_cons.mp hp with h | h
        · simp [h, hcl]
        · exact ih _ _ (by rw [wcSum_append_single]) p h
      · rcases List.mem_cons.mp hp with h | h
        · simp [h, hcl]
        · exact ih _ _ (by simp [wcSum]) p h
    · exact ih _ _ (by rw [wcSum_append_single, hcl]) p hp

theorem chunkAux_bound_no_overlap (size : Nat) :
    ∀ (sents cur : List (List Char)) (cl : Nat), cl ≤ size ∨ cur.length = 1 →
      ∀ p ∈ chunkAux size 0 sents cur cl, p.2 ≤ size ∨ p.1.length = 1 := by
  intro sents
  induction sents with
  | nil =>
    intro cur cl hinv p hp
    by_cases h : cur.isEmpty
    · simp [chunkAux, h] at hp
    · simp only [chunkAux, h, Bool.false_eq_true, if_false, List.mem_singleton] at hp
      subst hp
      exact hinv
  | cons s rest ih =>
    intro cur cl hinv p hp
    simp only [chunkAux] at hp
    split at hp
    · rename_i hcond
      split at hp
      · rename_i hov
        exact absurd hov.1 (by omega)
      · rcases List.mem_cons.mp hp with h | h
        · subst h; exact hinv
        · exact ih [s] (wc s) (Or.inr rfl) p h
    · rename_i hcond
      rcases not_and_or.mp hcond with h | h
      · exact ih _ _ (Or.inl (by omega)) p hp
      · have hc : cur = [] := List.isEmpty_iff.mp (not_not.mp h)
        exact ih _ _ (Or.inr (by simp [hc])) p hp

theorem chunkAux_single_mem (size : Nat) :
    ∀ (rest : List (List Char)) (s : List Char) (cl : Nat), size < cl →
      ([s], cl) ∈ chunkAux size 0 rest [s] cl := by
  intro rest
  induction rest with
  | nil => intro s cl _; simp [chunkAux]
  | cons r rest' _ =>
    intro s cl h
    simp only [chunkAux]
    split
    · split
      · rename_i hov
        exact absurd hov.1 (by omega)
      · exact List.mem_cons_self _ _
    · rename_i hcond
      exact absurd ⟨by omega, by simp⟩ hcond

theorem chunkAux_oversized_alone (size : Nat) :
    ∀ (sents cur : List (List Char)) (cl : Nat), (cur.isEmpty → cl = 0) →
      ∀ s ∈ sents, size < wc s →
        ∃ p ∈ chunkAux size 0 sents cur cl, p.1 = [s] := by
  intro sents
  induction sents with
  | nil => intro _ _ _ s hs; simp at hs
  | cons s0 rest ih =>
    intro cur cl hinv s hs hbig
    rcases List.mem_cons.mp hs with rfl | hmem
    · by_cases hcur : cur.isEmpty
      · have hc : cur = [] := List.isEmpty_iff.mp hcur
        have hcl : cl = 0 := hinv hcur
        subst hc; subst hcl
        simp only [chunkAux]
        split
        · rename_i hcond
          simp at hcond
        · refine ⟨([s], 0 + wc s), ?_, rfl⟩
          simpa using chunkAux_single_mem size rest s (0 + wc s) (by omega)
      · simp only [chunkAux]
        split
        · split
          · rename_i hov
            exact absurd hov.1 (by omega)
          · exact ⟨([s], wc s), List.mem_cons_of_mem _
              (chunkAux_single_mem size rest s (wc s) hbig), rfl⟩
        · rename_i hcond
          exact absurd ⟨by omega, by simpa using hcur⟩ hcond
    · simp only [chunkAux]
      split
      · split
        · rename_i hov
          exact absurd hov.1 (by omega)
        · rcases ih [s0] (wc s0) (by simp) s hmem hbig with ⟨p, hp, hps⟩
          exact ⟨p, List.mem_cons_of_mem _ hp, hps⟩
      · exact ih (cur ++ [s0]) _ (by simp) s hmem hbig

theorem chunkAux_eq_chunkAuxI (size ov : Nat) :
    ∀ (sents cur : List (List Char)) (cl k : Nat),
      chunkAux size ov sents cur cl =
        (chunkAuxI size ov sents cur cl k).map (fun t => (t.1, t.2.1)) := by
  intro sents
  induction sents with
  | nil =>
    intro cur cl k
    by_cases h : cur.isEmpty <;> simp [chunkAux, chunkAuxI, h]
  | cons s rest ih =>
    intro cur cl k
    simp only [chunkAux, chunkAuxI]
    split
    · split
      · simp only [List.map_cons]
        exact congrArg (List.cons _) (ih _ _ _)
      · simp only [List.map_cons]
        exact congrArg (List.cons _) (ih _ _ _)
    · exact ih _ _ _

theorem chunkAuxI_reconstruct (size ov : Nat) :
    ∀ (sents cur : List (List Char)) (cl k : Nat), k ≤ cur.length →
      ((chunkAuxI size ov sents cur cl k).map (fun t => t.1.drop t.2.2)).flatten
        = cur.drop k ++ sents := by
  intro sents
  induction sents with
  | nil =>
    intro cur cl k _
    by_cases h : cur.isEmpty
    · have hc : cur = [] := List.isEmpty_iff.mp h
      simp [chunkAuxI, h, hc]
    · simp [chunkAuxI, h]
  | cons s rest ih =>
    intro cur cl k hk
    simp only [chunkAuxI]
    split
    · split
      · simp only [List.map_cons, List.flatten_cons]
        rw [ih _ _ _ (by simp)]
        rw [List.drop_left]
        rfl
      · simp only [List.map_cons, List.flatten_cons]
        rw [ih _ _ _ (by simp)]
        rfl
    · rw [ih _ _ _ (by simpa using Nat.le_succ_of_le hk)]
      rw [List.drop_append_of_le_length hk]
      simp

theorem chunkAuxI_chain (size ov : Nat) :
    ∀ (sents cur : List (List Char)) (cl k : Nat), k ≤ cur.length →
      List.Chain' seedSuffix (chunkAuxI size ov sents cur cl k) ∧
      ∀ t, (chunkAuxI size ov sents cur cl k).head? = some t →
        t.2.2 = k ∧ t.1.take k = cur.take k := by
  intro sents
  induction sents with
  | nil =>
    intro cur cl k _
    by_cases h : cur.isEmpty
    · simp [chunkAuxI, h]
    · refine ⟨by simp [chunkAuxI, h], ?_⟩
      intro t ht
      simp only [chunkAuxI, h, Bool.false_eq_true, if_false, List.head?_cons,
        Option.some.injEq] at ht
      subst ht
      exact ⟨rfl, rfl⟩
  | cons s rest ih =>
    intro cur cl k hk
    simp only [chunkAuxI]
    split
    · split
      · rename_i hov
        rcases ih (cur.drop (cur.length - ov) ++ [s]) _ (cur.drop (cur.length - ov)).length
          (by simp) with ⟨hchain, hhead⟩
        refine ⟨List.chain'_cons'.mpr ⟨?_, hchain⟩, ?_⟩
        · intro t ht
          rcases hhead t ht with ⟨h1, h2⟩
          show (t.1.take t.2.2) <:+ cur
          rw [h1, h2, List.take_left]
          exact List.drop_suffix _ _
        · intro t ht
          simp only [List.head?_cons, Option.some.injEq] at ht
          subst ht
          exact ⟨rfl, rfl⟩
      · rcases ih [s] (wc s) 0 (by simp) with ⟨hchain, hhead⟩
        refine ⟨List.chain'_cons'.mpr ⟨?_, hchain⟩, ?_⟩
        · intro t ht
          rcases hhead t ht with ⟨h1, _⟩
          show (t.1.take t.2.2) <:+ cur
          rw [h1, List.take_zero]
          exact List.nil_suffix
        · intro t ht
          simp only [List.head?_cons, Option.some.injEq] at ht
          subst ht
          exact ⟨rfl, rfl⟩
    · rcases ih (cur ++ [s]) (cl + wc s) k
        (by simpa using Nat.le_succ_of_le hk) with ⟨hchain, hhead⟩
      refine ⟨hchain, ?_⟩
      intro t ht
      rcases hhead t ht with ⟨h1, h2⟩
      refine ⟨h1, ?_⟩
      rw [h2, List.take_append_of_le_length hk]

theorem execChunks_ok_length (rowOk : Nat → Bool) (mk : Nat → Chunk × List ℚ → Row) :
    ∀ (ces : List (Chunk × List ℚ)) (i : Nat) (pending : List Row),
      execChunks rowOk mk i ces = .ok pending → pending.length = ces.length := by
  intro ces
  induction ces with
  | nil =>
    intro i pending h
    simp only [execChunks] at h
    cases h
    rfl
  | cons ce rest ih =>
    intro i pending h
    simp only [execChunks] at h
    split at h
    · cases hrec : execChunks rowOk mk (i + 1) rest with
      | ok p' =>
        rw [hrec] at h
        simp only [Except.map] at h
        cases h
        simp [ih (i + 1) p' hrec]
      | error e =>
        rw [hrec] at h
        simp [Except.map] at h
    · simp at h

theorem load_papersAux_fst (parse : List Char → Option Paper) :
    ∀ (lines : List (List Char)) (i : Nat),
      (load_papersAux parse i lines).1 = lines.filterMap (fun l => parse (pyStrip l)) := by
  intro lines
  induction lines with
  | nil => intro i; rfl
  | cons l rest ih =>
    intro i
    rcases haux : load_papersAux parse (i + 1) rest with ⟨ps, fs⟩
    have hps : ps = rest.filterMap (fun l => parse (pyStrip l)) := by
      rw [← ih (i + 1), haux]
    cases h : parse (pyStrip l) <;>
      simp [load_papersAux, haux, h, List.filterMap_cons, hps]

theorem load_papersAux_snd_length (parse : List Char → Option Paper) :
    ∀ (lines : List (List Char)) (i : Nat),
      (load_papersAux parse i lines).2.length =
        (lines.filter (fun l => (parse (pyStrip l)).isNone)).length := by
  intro lines
  induction lines with
  | nil => intro i; rfl
  | cons l rest ih =>
    intro i
    rcases haux : load_papersAux parse (i + 1) rest with ⟨ps, fs⟩
    have hfs : fs.length = (rest.filter (fun l => (parse (pyStrip l)).isNone)).length := by
      rw [← ih (i + 1), haux]
    cases h : parse (pyStrip l) <;>
      simp [load_papersAux, haux, h, List.filter_cons, hfs]

theorem load_papersAux_line_numbers (parse : List Char → Option Paper) :
    ∀ (lines : List (List Char)) (i j : Nat) (hj : j < lines.length),
      parse (pyStrip (lines.get ⟨j, hj⟩)) = none →
        lineFailMsg (i + j) ∈ (load_papersAux parse i lines).2 := by
  intro lines
  induction lines with
  | nil => intro i j hj; simp at hj
  | cons l rest ih =>
    intro i j hj hnone
    rcases haux : load_papersAux parse (i + 1) rest with ⟨ps, fs⟩
    cases j with
    | zero =>
      simp only [List.get] at hnone
      simp [load_papersAux, haux, hnone]
    | succ j' =>
      have hj' : j' < rest.length := by simpa using hj
      have hmem : lineFailMsg (i + 1 + j') ∈ (load_papersAux parse (i + 1) rest).2 :=
        ih (i + 1) j' hj' (by simpa using hnone)
      rw [haux] at hmem
      have harith : i + 1 + j' = i + (j' + 1) := by omega
      rw [harith] at hmem
      cases h : parse (pyStrip l) <;> simp [load_papersAux, haux, h, hmem]

theorem filterMap_length_add_isNone {α β : Type} (f : α → Option β) :
    ∀ l : List α,
      (l.filterMap f).length + (l.filter (fun x => (f x).isNone)).length = l.length := by
  intro l
  induction l with
  | nil => rfl
  | cons x rest ih =>
    cases h : f x <;> simp [List.filterMap_cons, List.filter_cons, h] <;> omega

theorem collapseWsAux_true_all_space :
    ∀ l : List Char, l.all isPySpace = true → collapseWsAux true l = [] := by
  intro l
  induction l with
  | nil => intro _; rfl
  | cons c cs ih =>
    intro h
    have h' := h
    simp only [List.all_cons, Bool.and_eq_true] at h'
    rcases h' with ⟨hc, hcs⟩
    simp only [collapseWsAux, hc, if_true]
    exact ih hcs

theorem collapseWs_all_space (c : Char) (cs : List Char)
    (h : (c :: cs).all isPySpace = true) : collapseWs (c :: cs) = [' '] := by
  have h' := h
  simp only [List.all_cons, Bool.and_eq_true] at h'
  rcases h' with ⟨hc, hcs⟩
  simp only [collapseWs, collapseWsAux, hc, if_true, if_false]
  rw [collapseWsAux_true_all_space cs hcs]
  rfl

theorem clean_text_all_space :
    ∀ raw : List Char, raw.all isPySpace = true → clean_text raw = [] := by
  intro raw h
  cases raw with
  | nil => rfl
  | cons c cs =>
    have hcol : collapseWs (c :: cs) = [' '] := collapseWs_all_space c cs h
    show pyStrip (collapseWs (badRuns (dropMatchingLines isNumLine (dropMatchingLines
      isPageLine ((collapseWs (c :: cs)).filter (fun x => x ≠ '\x0c')))))) = []
    rw [hcol]
    rfl

/-- C9: every chunk emitted by `chunk_text` has a `word_count` field equal
to the number of whitespace-delimited tokens of its `text` field. -/
theorem claim9_word_count (size ov : Nat) (text title : List Char) :
    ∀ c ∈ chunk_text size ov text title, c.word_count = (splitWs c.text).length := by
  intro c hc
  simp only [chunk_text, List.mem_map] at hc
  rcases hc with ⟨p, hp, rfl⟩
  have h := chunkAux_wc size ov (splitSentences text) [] 0 rfl p hp
  show p.2 = (splitWs (joinSpace p.1)).length
  rw [h]
  exact (wc_joinSpace p.1).symm

/-- C9 witness: the first chunk produced from `ceTextA` at window 6,
overlap 2. -/
theorem claim9_witness :
    (⟨"a b c. d e f.".toList, 6, ([] : List Char)⟩ : Chunk).word_count =
      (splitWs (⟨"a b c. d e f.".toList, 6, ([] : List Char)⟩ : Chunk).text).length :=
  claim9_word_count 6 2 ceTextA [] _ (by decide)

/-- C3: chunking loses and reorders no sentence.  The instrumented loop
`chunkAuxI` carries, per chunk, the number of leading sentences seeded as
overlap from the previous chunk; (1) `chunk_text` is exactly its projection,
(2) dropping each chunk's seeded prefix and concatenating restores the
original sentence sequence of the input, and (3) each seeded prefix really
is a suffix of the previous chunk's sentence list. -/
theorem claim3_reconstruction (size ov : Nat) (text title : List Char) :
    chunk_text size ov text title =
      (chunkAuxI size ov (splitSentences text) [] 0 0).map
        (fun t => { text := joinSpace t.1, word_count := t.2.1, title := title }) ∧
    ((chunkAuxI size ov (splitSentences text) [] 0 0).map
        (fun t => t.1.drop t.2.2)).flatten = splitSentences text ∧
    List.Chain' seedSuffix (chunkAuxI size ov (splitSentences text) [] 0 0) := by
  refine ⟨?_, ?_, ?_⟩
  · show (chunkAux size ov (splitSentences text) [] 0).map _ = _
    rw [chunkAux_eq_chunkAuxI size ov (splitSentences text) [] 0 0, List.map_map]
    rfl
  · simpa using chunkAuxI_reconstruct size ov (splitSentences text) [] 0 0 (by simp)
  · exact (chunkAuxI_chain size ov (splitSentences text) [] 0 0 (by simp)).1

/-- C2 counterexample: `ceTextA` is a fixed point of `clean_text`, every
one of its sentences has at most 6 words (so no chunk can be a single
sentence longer than the window), yet at window 6 and overlap 2 a chunk
with 10 words is emitted. -/
theorem claim2_counterexample :
    clean_text ceTextA = ceTextA ∧
    (∀ s ∈ splitSentences ceTextA, (splitWs s).length ≤ 6) ∧
    ∃ c ∈ chunk_text 6 2 ceTextA [], 6 < c.word_count := by decide

/-- C2 amended: with `overlapSentences = 0`, every emitted chunk either has
`word_count ≤ windowSize` or consists of a single sentence (the oversized
single-sentence exception); `chunk_text` at overlap 0 is the projection of
that loop.  (With overlap > 0 the bound fails, see the counterexample.) -/
theorem claim2_amended_bound (size : Nat) (text title : List Char) :
    (∀ p ∈ chunkAux size 0 (splitSentences text) [] 0,
      p.2 ≤ size ∨ p.1.length = 1) ∧
    chunk_text size 0 text title =
      (chunkAux size 0 (splitSentences text) [] 0).map
        (fun p => { text := joinSpace p.1, word_count := p.2, title := title }) :=
  ⟨chunkAux_bound_no_overlap size (splitSentences text) [] 0
    (Or.inl (Nat.zero_le _)), rfl⟩

/-- C2 witness: the first chunk produced from `ceTextA` at window 6,
overlap 0 satisfies the bound disjunction. -/
theorem claim2_witness :
    (([("a b c.".toList : List Char), "d e f.".toList], 6) :
      List (List Char) × Nat).2 ≤ 6 ∨
    (([("a b c.".toList : List Char), "d e f.".toList], 6) :
      List (List Char) × Nat).1.length = 1 :=
  (claim2_amended_bound 6 ceTextA []).1 _ (by decide)

/-- C8 counterexample: `ceTextB` is a fixed point of `clean_text`, its
sentence `bigSent` has 7 > 6 words, yet at window 6 and overlap 2 no
emitted chunk equals that sentence alone — it is merged with the seeded
overlap sentences. -/
theorem claim8_counterexample :
    clean_text ceTextB = ceTextB ∧
    bigSent ∈ splitSentences ceTextB ∧
    6 < (splitWs bigSent).length ∧
    ∀ c ∈ chunk_text 6 2 ceTextB [], c.text ≠ bigSent := by decide

/-- C8 amended: a sentence longer than the window is never split; with
`overlapSentences = 0` it is emitted as a chunk by itself (with overlap > 0
it may be merged with seeded overlap sentences, see the counterexample). -/
theorem claim8_amended_no_overlap (size : Nat) (text title s : List Char)
    (hs : s ∈ splitSentences text) (hbig : size < (splitWs s).length) :
    ∃ c ∈ chunk_text size 0 text title,
      c.text = s ∧ c.word_count = (splitWs s).length := by
  rcases chunkAux_oversized_alone size (splitSentences text) [] 0 (fun _ => rfl)
    s hs hbig with ⟨p, hp, hps⟩
  refine ⟨{ text := joinSpace p.1, word_count := p.2, title := title },
    List.mem_map.mpr ⟨p, hp, rfl⟩, ?_, ?_⟩
  · rw [hps]
    rfl
  · have h := chunkAux_wc size 0 (splitSentences text) [] 0 rfl p hp
    rw [h, hps]
    simp [wcSum, wc]

/-- C8 witness: at overlap 0 the 7-word sentence of `ceTextB` is emitted
alone. -/
theorem claim8_witness :
    ∃ c ∈ chunk_text 6 0 ceTextB [],
      c.text = bigSent ∧ c.word_count = (splitWs bigSent).length :=
  claim8_amended_no_overlap 6 ceTextB [] bigSent (by decide) (by decide)

/-- C7 counterexample: the whitespace-only input `wsOnly` cleans to the
empty string, and `chunk_text` on the empty string yields one chunk (with
empty text and word count 0), not zero chunks. -/
theorem claim7_counterexample :
    wsOnly.all isPySpace = true ∧
    chunk_text 500 50 (clean_text wsOnly) [] =
      [{ text := [], word_count := 0, title := [] }] := by decide

/-- C7 amended: for every empty or whitespace-only input and every window
and overlap, the segmenter yields exactly one chunk, whose text is empty
and whose word count is 0 (not zero chunks). -/
theorem claim7_amended_empty_input (size ov : Nat) (title : List Char)
    (raw : List Char) (h : raw.all isPySpace = true) :
    chunk_text size ov (clean_text raw) title =
      [{ text := [], word_count := 0, title := title }] := by
  rw [clean_text_all_space raw h]
  show (chunkAux size ov (splitSentencesAux [] false []) [] 0).map _ = _
  simp [splitSentencesAux, chunkAux, wc, splitWs, splitWsAux, joinSpace]

/-- C7 witness: the amended statement at the concrete whitespace-only
input. -/
theorem claim7_witness :
    chunk_text 500 50 (clean_text wsOnly) "T".toList =
      [{ text := [], word_count := 0, title := "T".toList }] :=
  claim7_amended_empty_input 500 50 "T".toList wsOnly (by decide)

/-- C1: for every distance operator, stored table, query vector,
`maxResults` and `similarityFloor`, the result of `semantic_search` contains
no row whose score `1 - dist(query, stored)` is below the floor, has at most
`maxResults` rows, and is ordered non-increasingly by score. -/
theorem claim1_semantic_search_spec (dist : List ℚ → List ℚ → ℚ)
    (store : List Row) (qv : List ℚ) (maxResults : Nat) (thr : ℚ) :
    (∀ r ∈ semantic_search dist store qv maxResults thr,
      thr ≤ 1 - dist qv r.embedding) ∧
    (semantic_search dist store qv maxResults thr).length ≤ maxResults ∧
    (semantic_search dist store qv maxResults thr).Sorted
      (fun a b => 1 - dist qv b.embedding ≤ 1 - dist qv a.embedding) := by
  haveI ht : IsTotal Row (fun a b => 1 - dist qv b.embedding ≤ 1 - dist qv a.embedding) :=
    ⟨fun a b => le_total _ _⟩
  haveI htr : IsTrans Row (fun a b => 1 - dist qv b.embedding ≤ 1 - dist qv a.embedding) :=
    ⟨fun _ _ _ hab hbc => le_trans hbc hab⟩
  refine ⟨?_, ?_, ?_⟩
  · intro r hr
    have h1 : r ∈ (store.filter (fun r => thr ≤ 1 - dist qv r.embedding)).insertionSort
        (fun a b => 1 - dist qv b.embedding ≤ 1 - dist qv a.embedding) :=
      List.mem_of_mem_take hr
    have h2 := (List.mem_insertionSort _).mp h1
    have h3 := (List.mem_filter.mp h2).2
    exact of_decide_eq_true h3
  · exact List.length_take_le _ _
  · exact List.Pairwise.sublist (List.take_sublist _ _)
      (List.sorted_insertionSort _ _)

/-- C1 witness: with the trivial distance and a one-row store, the returned
row's score clears the floor. -/
theorem claim1_witness : (0 : ℚ) ≤ 1 - d0 [] row0.embedding :=
  (claim1_semantic_search_spec d0 [row0] [] 5 0).1 row0 (by
    have hss : semantic_search d0 [row0] [] 5 0 = [row0] := by
      simp [semantic_search, d0, List.insertionSort, List.orderedInsert]
    rw [hss]
    exact List.mem_singleton.mpr rfl)

/-- C4: running the pipeline on a paper set every one of whose titles is
already stored processes zero papers, adds zero chunks, and leaves both the
table and the failure list unchanged. -/
theorem claim4_idempotent_rerun (size ov : Nat)
    (embed : List (List Char) → List (List ℚ)) (rowOk : Nat → Bool)
    (now : List Char) (papers : List Paper) (store : List Row)
    (fails : List (List Char))
    (h : ∀ p ∈ papers, titleProcessed (get_processed_papers store) p = true) :
    pipelineRun size ov embed rowOk now papers store fails = (0, 0, store, fails) := by
  unfold pipelineRun
  by_cases hp : papers.isEmpty
  · simp [hp]
  · have hfilter :
        papers.filter (fun p => !titleProcessed (get_processed_papers store) p) = [] := by
      rw [List.filter_eq_nil_iff]
      intro a ha
      simp [h a ha]
    simp [hp, hfilter]

/-- C4 witness: re-running on `papersSeen` over a store already holding the
title `A` is a no-op. -/
theorem claim4_witness :
    pipelineRun 500 50 e0 ok0 now0 papersSeen [rowA] [] = (0, 0, [rowA], []) :=
  claim4_idempotent_rerun 500 50 e0 ok0 now0 papersSeen [rowA] [] (by decide)

/-- C5: `insert_paper_chunks` is atomic — either the call succeeds and the
table is extended by exactly one row per chunk (committed together), or it
fails and the table is unchanged. -/
theorem claim5_atomic_insert (rowOk : Nat → Bool) (now : List Char)
    (store : List Row) (paper : Paper) (chunks : List Chunk)
    (embeds : List (List ℚ)) (h : embeds.length = chunks.length) :
    (∃ rows, insert_paper_chunks rowOk now store paper chunks embeds =
        (store ++ rows, none) ∧ rows.length = chunks.length) ∨
    (∃ e, insert_paper_chunks rowOk now store paper chunks embeds =
        (store, some e)) := by
  unfold insert_paper_chunks
  cases ht : paper.title with
  | none => exact Or.inr ⟨_, rfl⟩
  | some t =>
    cases hexec : execChunks rowOk (mkRow t paper (mkPaperId t now) now chunks.length) 0
        (chunks.zip embeds) with
    | ok pending =>
      refine Or.inl ⟨pending, by simp [hexec], ?_⟩
      rw [execChunks_ok_length _ _ _ _ _ hexec, List.length_zip, h, Nat.min_self]
    | error e => exact Or.inr ⟨"Database insertion failed".toList, by simp [hexec]⟩

/-- C5 witness: the atomicity disjunction at a concrete one-chunk insert. -/
theorem claim5_witness :
    (∃ rows, insert_paper_chunks ok0 now0 [] paper0 chunks0 embeds0 =
        ([] ++ rows, none) ∧ rows.length = chunks0.length) ∨
    (∃ e, insert_paper_chunks ok0 now0 [] paper0 chunks0 embeds0 =
        ([], some e)) :=
  claim5_atomic_insert ok0 now0 [] paper0 chunks0 embeds0 rfl

/-- C6: `load_papers` keeps exactly the parsable lines in order, records
one failure per unparsable line carrying its 1-based line number, and never
aborts; in particular 10 valid lines and 1 malformed line load 10 documents
with exactly 1 recorded parse failure. -/
theorem claim6_load_papers_spec (parse : List Char → Option Paper)
    (lines : List (List Char)) :
    (load_papers parse lines).1 = lines.filterMap (fun l => parse (pyStrip l)) ∧
    (load_papers parse lines).2.length =
      (lines.filter (fun l => (parse (pyStrip l)).isNone)).length ∧
    (∀ (j : Nat) (hj : j < lines.length),
      parse (pyStrip (lines.get ⟨j, hj⟩)) = none →
        lineFailMsg (j + 1) ∈ (load_papers parse lines).2) ∧
    (lines.length = 11 →
      (lines.filter (fun l => (parse (pyStrip l)).isNone)).length = 1 →
        (load_papers parse lines).1.length = 10 ∧
        (load_papers parse lines).2.length = 1) := by
  refine ⟨load_papersAux_fst parse lines 1, load_papersAux_snd_length parse lines 1,
    ?_, ?_⟩
  · intro j hj hn
    have := load_papersAux_line_numbers parse lines 1 j hj hn
    rwa [Nat.add_comm 1 j] at this
  · intro h11 h1
    have hlen := filterMap_length_add_isNone (fun l => parse (pyStrip l)) lines
    constructor
    · rw [show (load_papers parse lines).1 = _ from load_papersAux_fst parse lines 1]
      omega
    · have h2 : (load_papers parse lines).2.length =
          (lines.filter (fun l => (parse (pyStrip l)).isNone)).length :=
        load_papersAux_snd_length parse lines 1
      rw [h2, h1]

/-- C6 witness: the concrete 11-line input with a malformed fourth line
loads 10 documents and records exactly one failure. -/
theorem claim6_witness :
    (load_papers parse0 lines0).1.length = 10 ∧
    (load_papers parse0 lines0).2.length = 1 :=
  (claim6_load_papers_spec parse0 lines0).2.2.2 (by decide) (by decide)

/-- C10: a paper object without a `title` field is never removed by the
dedup filter, and processing it stores nothing (the insert raises before
commit), records exactly one per-document failure, and the loop continues
with the remaining papers against the unchanged table. -/
theorem claim10_missing_title (size ov : Nat)
    (embed : List (List Char) → List (List ℚ)) (rowOk : Nat → Bool)
    (now : List Char) (ts : List (List Char)) (store : List Row)
    (fails : List (List Char)) (rest : List Paper) (p : Paper)
    (h : p.title = none) :
    titleProcessed ts p = false ∧
    ∃ m, process_paper size ov embed rowOk now p store fails = (0, store, fails ++ [m]) ∧
      processLoop size ov embed rowOk now (p :: rest) store fails =
        processLoop size ov embed rowOk now rest store (fails ++ [m]) := by
  refine ⟨by simp [titleProcessed, h], ?_⟩
  have hins : ∀ chunks embeds, insert_paper_chunks rowOk now store p chunks embeds =
      (store, some "KeyError: title".toList) := by
    intro chunks embeds
    simp [insert_paper_chunks, h]
  have hpp : ∃ m, process_paper size ov embed rowOk now p store fails =
      (0, store, fails ++ [m]) := by
    simp only [process_paper]
    split
    · exact ⟨_, rfl⟩
    · split
      · exact ⟨_, rfl⟩
      · rw [hins]
        exact ⟨_, rfl⟩
  rcases hpp with ⟨m, hm⟩
  refine ⟨m, hm, ?_⟩
  rcases hloop : processLoop size ov embed rowOk now rest store (fails ++ [m])
    with ⟨n, tc, s2, f2⟩
  simp [processLoop, hm, hloop]

/-- C10 witness: the title-less `badPaper` passes the dedup filter of a
store that already contains `rowA`. -/
theorem claim10_witness : titleProcessed (get_processed_papers [rowA]) badPaper = false :=
  (claim10_missing_title 500 50 e0 ok0 now0 (get_processed_papers [rowA]) [] [] []
    badPaper rfl).1

end FitCheck
